import Mathlib

set_option maxHeartbeats 1000000
set_option linter.unusedSectionVars false
set_option linter.unusedVariables false

/-!
Shallow embedding of the `graph` crate (`src/lib.rs`): a keyed tree container
with `append_node`, `travel_to_node`, `remove_node_with_childs` and helpers,
together with a verification of the specification's claims about it.

Rust panics are modelled as an error message returned next to the container
state at the moment of the panic; mutation of `&mut self` is modelled by
returning the new container value.
-/

namespace GraphLib

/-- A node of the graph (mirrors `struct Node` in `src/lib.rs`): the payload
`data`, the keys of its children, the optional key of its father, and its own
key. -/
structure Node (D K : Type) where
  data : D
  children : List K
  father_key : Option K
  key : K
  deriving DecidableEq

/-- `Node::new`: a fresh node holding `data`, with the given key and optional
father key and an empty children list. -/
def Node.new {D K : Type} (data : D) (key : K) (father_key : Option K) : Node D K :=
  { data := data, children := [], father_key := father_key, key := key }

variable {D K : Type} [DecidableEq K]

/-- `Node::has_child`: true iff `k` occurs in the node's children list
(linear scan). -/
def Node.has_child (n : Node D K) (k : K) : Bool :=
  n.children.any (fun c => decide (c = k))

/-- The graph container (mirrors `struct Graph`): an ordered list of nodes. -/
structure Graph (D K : Type) where
  nodes : List (Node D K)
  deriving DecidableEq

/-- `Graph::new`: the empty graph. -/
def Graph.new : Graph D K := ⟨[]⟩

/-- `Graph::len`: the number of nodes in the graph. -/
def Graph.len (g : Graph D K) : Nat := g.nodes.length

/-- `Graph::is_empty`: whether the graph holds no nodes. -/
def Graph.is_empty (g : Graph D K) : Bool := g.nodes.isEmpty

/-- `find_node_with_key`: the first node in the list whose key equals `key`,
if any (linear scan, mirrors the free function in `src/lib.rs`). -/
def find_node_with_key : List (Node D K) → K → Option (Node D K)
  | [], _ => none
  | n :: rest, k => if n.key = k then some n else find_node_with_key rest k

/-- `delete_node`: remove the first node whose key equals `key`; a no-op when
no node has that key (mirrors `position` + `remove` in `src/lib.rs`). -/
def delete_node : List (Node D K) → K → List (Node D K)
  | [], _ => []
  | n :: rest, k => if n.key = k then rest else n :: delete_node rest k

/-- The `for current_node in self.nodes.iter_mut()` loop of `append_node`:
scan for the first node whose key is `fk` and push `ck` onto its children
list; the boolean is the loop's `added_key` flag. -/
def append_child_loop : List (Node D K) → K → K → List (Node D K) × Bool
  | [], _, _ => ([], false)
  | n :: rest, fk, ck =>
    if n.key = fk then ({ n with children := n.children ++ [ck] } :: rest, true)
    else
      let r := append_child_loop rest fk ck
      (n :: r.1, r.2)

/-- `Graph::append_node`. The returned graph is the container state when the
call returns or panics; the `Option String` is `some` of the panic message on
a structural violation and `none` on success. -/
def append_node (g : Graph D K) (node : Node D K) : Graph D K × Option String :=
  if g.nodes.isEmpty then
    match node.father_key with
    | some _ => (g, some "First node cant have a fathers key.")
    | none => (⟨g.nodes ++ [node]⟩, none)
  else
    match node.father_key with
    | some fk =>
      let r := append_child_loop g.nodes fk node.key
      if r.2 then (⟨r.1 ++ [node]⟩, none)
      else (⟨r.1⟩, some "Needs father and no father found")
    | none => (g, some "Needs father and no father found")

/-- The first node of the list carrying no father key: the initial
`start_node` scan of `travel_to_node`. -/
def first_root : List (Node D K) → Option (Node D K)
  | [] => none
  | n :: rest => if n.father_key.isNone then some n else first_root rest

/-- The `for key in route` loop of `travel_to_node`: when the current node is
absent the iteration does nothing; otherwise the route key must be one of the
current node's children and name a node of the list, which becomes current,
else the call returns `none` at once. -/
def travel_loop (nodes : List (Node D K)) : Option (Node D K) → List K → Option (Node D K)
  | cur, [] => cur
  | cur, k :: rest =>
    match cur with
    | none => travel_loop nodes none rest
    | some c =>
      if c.has_child k then
        match find_node_with_key nodes k with
        | some m => travel_loop nodes (some m) rest
        | none => none
      else none

/-- `Graph::travel_to_node`: walk `route` from the first parentless node. -/
def travel_to_node (g : Graph D K) (route : List K) : Option (Node D K) :=
  travel_loop g.nodes (first_root g.nodes) route

/-- `find_all_child_nodes`, with an explicit recursion bound. The Rust
function recurses through children lists without any bound (and would not
terminate on a cyclic key reference, which graphs built by `append_node`
never produce, their children always naming strictly later nodes); a fuel of
`nodes.length` therefore always suffices and is what `find_all_child_nodes`
below passes. -/
def find_all_child_nodes_fuel (nodes : List (Node D K)) : Nat → K → List K
  | 0, _ => []
  | fuel + 1, k =>
    match find_node_with_key nodes k with
    | none => []
    | some n => n.children.flatMap (fun c => find_all_child_nodes_fuel nodes fuel c ++ [c])

/-- `find_all_child_nodes`: all transitive child keys of `key`, each child's
own descendants listed before it (post-order), as collected by the Rust
recursion. -/
def find_all_child_nodes (nodes : List (Node D K)) (key : K) : List K :=
  find_all_child_nodes_fuel nodes nodes.length key

/-- `Graph::remove_node_with_childs`: collect all transitive child keys of
`key`, push `key` itself, and delete each of them in turn. -/
def remove_node_with_childs (g : Graph D K) (key : K) : Graph D K :=
  let all := find_all_child_nodes g.nodes key ++ [key]
  ⟨all.foldl (fun ns k => delete_node ns k) g.nodes⟩

/-- The keys of the nodes, in storage order. -/
def node_keys (nodes : List (Node D K)) : List K := nodes.map Node.key

/-- `x` is a transitive descendant of `k`: reachable from the node found at
key `k` by following children lists (the keys `remove_node_with_childs`
collects). -/
inductive Desc (nodes : List (Node D K)) : K → K → Prop where
  | child {k c : K} {n : Node D K} :
      find_node_with_key nodes k = some n → c ∈ n.children → Desc nodes k c
  | tail {k c d : K} {n : Node D K} :
      find_node_with_key nodes k = some n → c ∈ n.children → Desc nodes c d →
      Desc nodes k d

/-- Graphs reachable from `Graph::new` by successful `append_node` calls on
externally constructed (`Node::new`) nodes. -/
inductive Built : Graph D K → Prop where
  | base : Built Graph.new
  | app {g g' : Graph D K} {d : D} {k : K} {fk : Option K} :
      Built g → append_node g (Node.new d k fk) = (g', none) → Built g'

/-! ### Basic lemmas about the helpers -/

@[simp]
theorem node_keys_nil : node_keys ([] : List (Node D K)) = [] := rfl

@[simp]
theorem node_keys_cons {n : Node D K} {rest : List (Node D K)} :
    node_keys (n :: rest) = n.key :: node_keys rest := rfl

@[simp]
theorem node_keys_append {xs ys : List (Node D K)} :
    node_keys (xs ++ ys) = node_keys xs ++ node_keys ys :=
  List.map_append _ _ _

theorem mem_node_keys {nodes : List (Node D K)} {k : K} :
    k ∈ node_keys nodes ↔ ∃ n ∈ nodes, n.key = k := by
  simp [node_keys]

theorem Node.has_child_iff {n : Node D K} {k : K} :
    n.has_child k = true ↔ k ∈ n.children := by
  simp [Node.has_child]

theorem find_node_with_key_eq_none {nodes : List (Node D K)} {k : K} :
    find_node_with_key nodes k = none ↔ k ∉ node_keys nodes := by
  induction nodes with
  | nil => simp [find_node_with_key]
  | cons n rest ih =>
    by_cases h : n.key = k
    · simp [find_node_with_key, h]
    · rw [find_node_with_key, if_neg h, ih]
      simp only [node_keys_cons, List.mem_cons, not_or]
      exact ⟨fun h2 => ⟨fun hk => h hk.symm, h2⟩, fun h2 => h2.2⟩

theorem find_node_with_key_some {nodes : List (Node D K)} {k : K} {n : Node D K}
    (h : find_node_with_key nodes k = some n) : n ∈ nodes ∧ n.key = k := by
  induction nodes with
  | nil => simp [find_node_with_key] at h
  | cons m rest ih =>
    by_cases hm : m.key = k
    · simp [find_node_with_key, hm] at h
      exact ⟨by simp [← h], by rw [← h]; exact hm⟩
    · simp [find_node_with_key, hm] at h
      rcases ih h with ⟨h1, h2⟩
      exact ⟨List.mem_cons_of_mem _ h1, h2⟩

theorem find_node_with_key_split {nodes : List (Node D K)} {k : K} {n : Node D K}
    (h : find_node_with_key nodes k = some n) :
    ∃ pre post, nodes = pre ++ n :: post ∧ k ∉ node_keys pre ∧ n.key = k := by
  induction nodes with
  | nil => simp [find_node_with_key] at h
  | cons m rest ih =>
    by_cases hm : m.key = k
    · simp [find_node_with_key, hm] at h
      exact ⟨[], rest, by simp [← h], by simp, by rw [← h]; exact hm⟩
    · simp [find_node_with_key, hm] at h
      rcases ih h with ⟨pre, post, h1, h2, h3⟩
      refine ⟨m :: pre, post, by simp [h1], ?_, h3⟩
      simp only [node_keys_cons, List.mem_cons, not_or]
      exact ⟨fun hk => hm hk.symm, h2⟩

theorem key_inj {nodes : List (Node D K)} (hnd : (node_keys nodes).Nodup)
    {a b : Node D K} (ha : a ∈ nodes) (hb : b ∈ nodes) (hk : a.key = b.key) :
    a = b :=
  List.inj_on_of_nodup_map hnd ha hb hk

theorem find_node_with_key_of_mem {nodes : List (Node D K)}
    (hnd : (node_keys nodes).Nodup) {n : Node D K} (hn : n ∈ nodes) :
    find_node_with_key nodes n.key = some n := by
  induction nodes with
  | nil => simp at hn
  | cons m rest ih =>
    rcases List.mem_cons.1 hn with h | h
    · subst h; simp [find_node_with_key]
    · by_cases hm : m.key = n.key
      · exfalso
        simp only [node_keys_cons, List.nodup_cons] at hnd
        exact hnd.1 (hm ▸ (mem_node_keys.2 ⟨n, h, rfl⟩))
      · simp only [node_keys_cons, List.nodup_cons] at hnd
        simp [find_node_with_key, hm, ih hnd.2 h]

/-- The position (0-based) of the first node whose key is `k`; equals the list
length when no node has key `k`. -/
def rank : List (Node D K) → K → Nat
  | [], _ => 0
  | n :: rest, k => if n.key = k then 0 else rank rest k + 1

theorem rank_lt_length {nodes : List (Node D K)} {k : K}
    (h : k ∈ node_keys nodes) : rank nodes k < nodes.length := by
  induction nodes with
  | nil => simp at h
  | cons n rest ih =>
    by_cases hn : n.key = k
    · simp [rank, hn]
    · simp only [node_keys_cons, List.mem_cons] at h
      rcases h with h | h
      · exact absurd h.symm hn
      · simp only [rank, hn, if_false, List.length_cons]
        exact Nat.succ_lt_succ (ih h)

theorem rank_append_of_not_mem {pre rest : List (Node D K)} {k : K}
    (h : k ∉ node_keys pre) : rank (pre ++ rest) k = pre.length + rank rest k := by
  induction pre with
  | nil => simp
  | cons n pre' ih =>
    simp only [node_keys_cons, List.mem_cons, not_or] at h
    have hne : ¬ n.key = k := fun hk => h.1 hk.symm
    show (if n.key = k then 0 else rank (pre' ++ rest) k + 1) =
      (n :: pre').length + rank rest k
    rw [if_neg hne, ih h.2]
    simp only [List.length_cons]
    omega

theorem rank_of_split {pre post : List (Node D K)} {n : Node D K} {k : K}
    (hpre : k ∉ node_keys pre) (hk : n.key = k) :
    rank (pre ++ n :: post) k = pre.length := by
  rw [rank_append_of_not_mem hpre]
  simp [rank, hk]

/-! ### Anatomy of `append_node` -/

theorem append_child_loop_of_not_mem {nodes : List (Node D K)} {fk ck : K}
    (h : fk ∉ node_keys nodes) : append_child_loop nodes fk ck = (nodes, false) := by
  induction nodes with
  | nil => rfl
  | cons n rest ih =>
    simp only [node_keys_cons, List.mem_cons, not_or] at h
    have hne : ¬ n.key = fk := fun hk => h.1 hk.symm
    simp [append_child_loop, hne, ih h.2]

theorem append_child_loop_false {nodes : List (Node D K)} {fk ck : K}
    (h : (append_child_loop nodes fk ck).2 = false) :
    (append_child_loop nodes fk ck).1 = nodes ∧ fk ∉ node_keys nodes := by
  induction nodes with
  | nil => exact ⟨rfl, by simp⟩
  | cons n rest ih =>
    by_cases hn : n.key = fk
    · simp [append_child_loop, hn] at h
    · simp only [append_child_loop, if_neg hn] at h ⊢
      rcases ih h with ⟨h1, h2⟩
      refine ⟨by simp [h1], ?_⟩
      simp only [node_keys_cons, List.mem_cons, not_or]
      exact ⟨fun hk => hn hk.symm, h2⟩

theorem append_child_loop_true {nodes : List (Node D K)} {fk ck : K}
    (h : (append_child_loop nodes fk ck).2 = true) :
    ∃ pre p post, nodes = pre ++ p :: post ∧ fk ∉ node_keys pre ∧ p.key = fk ∧
      (append_child_loop nodes fk ck).1 =
        pre ++ { p with children := p.children ++ [ck] } :: post := by
  induction nodes with
  | nil => simp [append_child_loop] at h
  | cons n rest ih =>
    by_cases hn : n.key = fk
    · exact ⟨[], n, rest, by simp, by simp, hn, by simp [append_child_loop, hn]⟩
    · simp only [append_child_loop, if_neg hn] at h ⊢
      rcases ih h with ⟨pre, p, post, h1, h2, h3, h4⟩
      refine ⟨n :: pre, p, post, by simp [h1], ?_, h3, by simp [h4]⟩
      simp only [node_keys_cons, List.mem_cons, not_or]
      exact ⟨fun hk => hn hk.symm, h2⟩

theorem append_node_fail_state {g : Graph D K} {n : Node D K} {e : String}
    (h : (append_node g n).2 = some e) : (append_node g n).1 = g := by
  by_cases hemp : g.nodes.isEmpty
  · cases hfk : n.father_key with
    | some fk => simp [append_node, hemp, hfk]
    | none => simp [append_node, hemp, hfk] at h
  · cases hfk : n.father_key with
    | none => simp [append_node, hemp, hfk]
    | some fk =>
      cases hr : (append_child_loop g.nodes fk n.key).2 with
      | true => simp [append_node, hemp, hfk, hr] at h
      | false =>
        simp only [append_node, hemp, if_false, hfk, hr, Bool.false_eq_true, if_neg]
        have := (append_child_loop_false hr).1
        simp [this]

theorem append_node_ok {g g' : Graph D K} {n : Node D K}
    (h : append_node g n = (g', none)) :
    (g.nodes = [] ∧ n.father_key = none ∧ g'.nodes = [n]) ∨
    (∃ fk pre p post, n.father_key = some fk ∧ g.nodes = pre ++ p :: post ∧
      fk ∉ node_keys pre ∧ p.key = fk ∧
      g'.nodes = pre ++ { p with children := p.children ++ [n.key] } :: (post ++ [n])) := by
  by_cases hemp : g.nodes.isEmpty
  · cases hfk : n.father_key with
    | some fk => simp [append_node, hemp, hfk] at h
    | none =>
      left
      have hnil : g.nodes = [] := by simpa [List.isEmpty_iff] using hemp
      simp only [append_node, hemp, if_true, hfk] at h
      refine ⟨hnil, rfl, ?_⟩
      have := congrArg Prod.fst h
      simp only at this
      rw [← this]
      simp [hnil]
  · cases hfk : n.father_key with
    | none => simp [append_node, hemp, hfk] at h
    | some fk =>
      right
      cases hr : (append_child_loop g.nodes fk n.key).2 with
      | false => simp [append_node, hemp, hfk, hr] at h
      | true =>
        simp only [append_node, hemp, if_false, hfk, hr, if_true] at h
        rcases append_child_loop_true hr with ⟨pre, p, post, h1, h2, h3, h4⟩
        refine ⟨fk, pre, p, post, rfl, h1, h2, h3, ?_⟩
        have := congrArg Prod.fst h
        simp only at this
        rw [← this, h4]
        simp

theorem append_node_ok_len {g g' : Graph D K} {n : Node D K}
    (h : append_node g n = (g', none)) : g'.len = g.len + 1 := by
  rcases append_node_ok h with ⟨h1, _, h3⟩ | ⟨fk, pre, p, post, _, h2, _, _, h5⟩
  · simp [Graph.len, h1, h3]
  · simp [Graph.len, h2, h5]
    omega

theorem append_node_ok_keys {g g' : Graph D K} {n : Node D K}
    (h : append_node g n = (g', none)) :
    node_keys g'.nodes = node_keys g.nodes ++ [n.key] := by
  rcases append_node_ok h with ⟨h1, _, h3⟩ | ⟨fk, pre, p, post, _, h2, _, _, h5⟩
  · simp [h1, h3]
  · simp [h2, h5]

/-! ### Invariants of graphs built by `append_node` -/

/-- Every node's children list only names keys of strictly later nodes. -/
def Forward : List (Node D K) → Prop
  | [] => True
  | n :: rest => (∀ c ∈ n.children, c ∈ node_keys rest) ∧ Forward rest

/-- All children lists of the nodes, concatenated in storage order. -/
def all_children (nodes : List (Node D K)) : List K := nodes.flatMap Node.children

/-- Every node's declared father exists and lists the node among its
children. -/
def Mirror (nodes : List (Node D K)) : Prop :=
  ∀ n ∈ nodes, ∀ fk, n.father_key = some fk →
    ∃ p, p ∈ nodes ∧ p.key = fk ∧ n.key ∈ p.children

/-- The first node is parentless and every later node carries a father key. -/
def RootShape (nodes : List (Node D K)) : Prop :=
  ∀ h t, nodes = h :: t → h.father_key = none ∧ ∀ n ∈ t, n.father_key ≠ none

@[simp]
theorem all_children_nil : all_children ([] : List (Node D K)) = [] := rfl

@[simp]
theorem all_children_cons {n : Node D K} {rest : List (Node D K)} :
    all_children (n :: rest) = n.children ++ all_children rest := rfl

@[simp]
theorem all_children_append {xs ys : List (Node D K)} :
    all_children (xs ++ ys) = all_children xs ++ all_children ys := by
  simp [all_children]

theorem mem_all_children {nodes : List (Node D K)} {c : K} :
    c ∈ all_children nodes ↔ ∃ n ∈ nodes, c ∈ n.children := by
  simp [all_children]

theorem forward_split {nodes pre post : List (Node D K)} {n : Node D K}
    (hF : Forward nodes) (hsplit : nodes = pre ++ n :: post) :
    ∀ c ∈ n.children, c ∈ node_keys post := by
  induction pre generalizing nodes with
  | nil =>
    subst hsplit
    exact hF.1
  | cons a pre' ih =>
    subst hsplit
    exact ih hF.2 rfl

theorem forward_all_children_sub {nodes : List (Node D K)} (hF : Forward nodes)
    {c : K} (hc : c ∈ all_children nodes) : c ∈ node_keys nodes := by
  rcases mem_all_children.1 hc with ⟨n, hn, hcn⟩
  rcases List.append_of_mem hn with ⟨pre, post, hsplit⟩
  have := forward_split hF hsplit c hcn
  rw [hsplit]
  simp only [node_keys_append, node_keys_cons, List.mem_append, List.mem_cons]
  exact Or.inr (Or.inr this)

theorem forward_append_single {xs : List (Node D K)} {node : Node D K}
    (hF : Forward xs) (hnode : node.children = []) : Forward (xs ++ [node]) := by
  induction xs with
  | nil => exact ⟨by simp [hnode], trivial⟩
  | cons a rest ih =>
    refine ⟨fun c hc => ?_, ih hF.2⟩
    have := hF.1 c hc
    show c ∈ node_keys (rest ++ [node])
    simp only [node_keys_append]
    exact List.mem_append_left _ this

theorem forward_upd {pre post : List (Node D K)} {p : Node D K} {ck : K}
    (hF : Forward (pre ++ p :: post)) (hck : ck ∈ node_keys post) :
    Forward (pre ++ { p with children := p.children ++ [ck] } :: post) := by
  induction pre with
  | nil =>
    refine ⟨fun c hc => ?_, hF.2⟩
    simp only [List.mem_append, List.mem_singleton] at hc
    rcases hc with hc | hc
    · exact hF.1 c hc
    · exact hc ▸ hck
  | cons a pre' ih =>
    refine ⟨fun c hc => ?_, ih hF.2⟩
    have h2 : c ∈ node_keys (pre' ++ p :: post) := hF.1 c hc
    show c ∈ node_keys (pre' ++ { p with children := p.children ++ [ck] } :: post)
    simp only [node_keys_append, node_keys_cons] at h2 ⊢
    exact h2

theorem built_forward {g : Graph D K} (hb : Built g) : Forward g.nodes := by
  induction hb with
  | base => trivial
  | @app g₀ g₁ d k fk hb hok ih =>
    rcases append_node_ok hok with ⟨h1, _, h3⟩ | ⟨fk', pre, p, post, _, h2, _, _, h5⟩
    · rw [h3]
      exact ⟨by simp [Node.new], trivial⟩
    · rw [h5]
      have h' : Forward ((pre ++ p :: post) ++ [Node.new d k fk]) :=
        forward_append_single (h2 ▸ ih) rfl
      rw [List.append_assoc, List.cons_append] at h'
      exact forward_upd h' (by simp [Node.new])

theorem built_rootshape {g : Graph D K} (hb : Built g) : RootShape g.nodes := by
  induction hb with
  | base => intro h t ht; simp [Graph.new] at ht
  | @app g₀ g₁ d k fk hb hok ih =>
    rcases append_node_ok hok with ⟨h1, h2, h3⟩ | ⟨fk', pre, p, post, hfk, h2, _, _, h5⟩
    · intro h t ht
      rw [h3] at ht
      injection ht with hh htl
      subst hh; subst htl
      exact ⟨h2, by simp⟩
    · intro h t ht
      rw [h5] at ht
      cases pre with
      | nil =>
        simp only [List.nil_append] at ht
        injection ht with hh htl
        subst hh; subst htl
        have hold := ih p post (by simpa using h2)
        refine ⟨hold.1, fun x hx => ?_⟩
        rcases List.mem_append.1 hx with hx | hx
        · exact hold.2 x hx
        · rw [List.mem_singleton.1 hx, hfk]
          simp
      | cons a pre' =>
        simp only [List.cons_append] at ht
        injection ht with hh htl
        subst hh; subst htl
        have hold := ih a (pre' ++ p :: post) (by simpa using h2)
        refine ⟨hold.1, fun x hx => ?_⟩
        rcases List.mem_append.1 hx with hx | hx
        · exact hold.2 x (by simp [hx])
        · rcases List.mem_cons.1 hx with hx | hx
          · subst hx
            have hp : p.father_key ≠ none := hold.2 p (by simp)
            simpa using hp
          · rcases List.mem_append.1 hx with hx | hx
            · exact hold.2 x (by simp [hx])
            · rw [List.mem_singleton.1 hx, hfk]
              simp

theorem built_mirror {g : Graph D K} (hb : Built g) : Mirror g.nodes := by
  induction hb with
  | base => intro n hn; simp [Graph.new] at hn
  | @app g₀ g₁ d k fk hb hok ih =>
    rcases append_node_ok hok with ⟨h1, h2, h3⟩ | ⟨fk', pre, p, post, hfk, h2, _, hpk, h5⟩
    · intro n hn fk₀ hn_fk
      rw [h3] at hn
      rw [List.mem_singleton.1 hn, h2] at hn_fk
      cases hn_fk
    · have survivor : ∀ q ∈ g₀.nodes, ∀ ck ∈ q.children,
          ∃ q', q' ∈ g₁.nodes ∧ q'.key = q.key ∧ ck ∈ q'.children := by
        intro q hq ck hck
        rw [h2] at hq
        rcases List.mem_append.1 hq with hq | hq
        · exact ⟨q, by simp [h5, hq], rfl, hck⟩
        · rcases List.mem_cons.1 hq with hq | hq
          · subst hq
            exact ⟨{ q with children := q.children ++ [(Node.new d k fk).key] },
              by simp [h5], rfl, by simp [hck]⟩
          · exact ⟨q, by simp [h5, hq], rfl, hck⟩
      intro n hn fk₀ hn_fk
      rw [h5] at hn
      have hcase : n ∈ g₀.nodes ∨
          (n = { p with children := p.children ++ [(Node.new d k fk).key] } ∨
            n = Node.new d k fk) := by
        rcases List.mem_append.1 hn with hn | hn
        · exact Or.inl (by rw [h2]; exact List.mem_append_left _ hn)
        · rcases List.mem_cons.1 hn with hn | hn
          · exact Or.inr (Or.inl hn)
          · rcases List.mem_append.1 hn with hn | hn
            · exact Or.inl (by rw [h2]; simp [hn])
            · exact Or.inr (Or.inr (List.mem_singleton.1 hn))
      rcases hcase with hn' | hn' | hn'
      · rcases ih n hn' fk₀ hn_fk with ⟨q, hq, hqk, hqc⟩
        rcases survivor q hq n.key hqc with ⟨q', hq', hq'k, hq'c⟩
        exact ⟨q', hq', hq'k.trans hqk, hq'c⟩
      · subst hn'
        simp only at hn_fk
        rcases ih p (by rw [h2]; simp) fk₀ hn_fk with ⟨q, hq, hqk, hqc⟩
        rcases survivor q hq p.key hqc with ⟨q', hq', hq'k, hq'c⟩
        exact ⟨q', hq', hq'k.trans hqk, hq'c⟩
      · subst hn'
        have : fk' = fk₀ := by
          rw [hfk] at hn_fk
          exact Option.some.inj hn_fk
        subst this
        exact ⟨{ p with children := p.children ++ [(Node.new d k fk).key] },
          by simp [h5], hpk, by simp⟩

theorem built_flat_nodup {g : Graph D K} (hb : Built g) :
    (node_keys g.nodes).Nodup → (all_children g.nodes).Nodup := by
  induction hb with
  | base => intro _; simp [Graph.new]
  | @app g₀ g₁ d k fk hb hok ih =>
    intro hnd'
    rw [append_node_ok_keys hok, List.nodup_append] at hnd'
    obtain ⟨hndA, _, hdisj⟩ := hnd'
    have hx : (Node.new d k fk).key ∉ node_keys g₀.nodes :=
      fun hmem => hdisj hmem (by simp)
    have hflat := ih hndA
    rcases append_node_ok hok with ⟨h1, h2, h3⟩ | ⟨fk', pre, p, post, hfk, h2, _, _, h5⟩
    · rw [h3]
      simp [Node.new]
    · have hxf : (Node.new d k fk).key ∉ all_children g₀.nodes :=
        fun hc => hx (forward_all_children_sub (built_forward hb) hc)
      rw [h2] at hflat hxf
      rw [h5]
      have hG : all_children
          (pre ++ { p with children := p.children ++ [(Node.new d k fk).key] } ::
            (post ++ [Node.new d k fk])) =
          (all_children pre ++ p.children) ++
            (Node.new d k fk).key :: all_children post := by
        simp [Node.new]
      rw [hG, List.nodup_middle, List.nodup_cons]
      constructor
      · intro hmem
        apply hxf
        simp only [all_children_append, all_children_cons, List.mem_append] at hmem ⊢
        tauto
      · simp only [all_children_append, all_children_cons] at hflat
        simpa [List.append_assoc] using hflat

/-! ### Ranks, descendants, and their structure on well-formed node lists -/

theorem child_rank {nodes : List (Node D K)} (hnd : (node_keys nodes).Nodup)
    (hF : Forward nodes) {k c : K} {n : Node D K}
    (hf : find_node_with_key nodes k = some n) (hc : c ∈ n.children) :
    rank nodes k < rank nodes c ∧ c ∈ node_keys nodes := by
  rcases find_node_with_key_split hf with ⟨pre, post, hs, hpre, hk⟩
  have hcpost : c ∈ node_keys post := forward_split hF hs c hc
  have hrk : rank nodes k = pre.length := by rw [hs]; exact rank_of_split hpre hk
  have hnd' : (node_keys pre ++ n.key :: node_keys post).Nodup := by
    rw [hs] at hnd; simpa using hnd
  rw [List.nodup_append] at hnd'
  have hcpre : c ∉ node_keys pre := fun hmem =>
    hnd'.2.2 hmem (List.mem_cons_of_mem _ hcpost)
  have hcn : ¬ n.key = c := fun he =>
    (List.nodup_cons.1 hnd'.2.1).1 (he ▸ hcpost)
  have hrc : rank nodes c = pre.length + (rank post c + 1) := by
    rw [hs, rank_append_of_not_mem hcpre]
    congr 1
    simp [rank, hcn]
  constructor
  · omega
  · rw [hs]
    simp only [node_keys_append, node_keys_cons, List.mem_append, List.mem_cons]
    exact Or.inr (Or.inr hcpost)

theorem desc_rank {nodes : List (Node D K)} (hnd : (node_keys nodes).Nodup)
    (hF : Forward nodes) {a b : K} (h : Desc nodes a b) :
    rank nodes a < rank nodes b ∧ b ∈ node_keys nodes := by
  induction h with
  | child hf hc => exact child_rank hnd hF hf hc
  | tail hf hc _ ih =>
    have h1 := child_rank hnd hF hf hc
    exact ⟨h1.1.trans ih.1, ih.2⟩

theorem desc_irrefl {nodes : List (Node D K)} (hnd : (node_keys nodes).Nodup)
    (hF : Forward nodes) {a : K} (h : Desc nodes a a) : False :=
  lt_irrefl _ (desc_rank hnd hF h).1

theorem desc_last_step {nodes : List (Node D K)} {a x : K} (h : Desc nodes a x) :
    ∃ p np, find_node_with_key nodes p = some np ∧ x ∈ np.children ∧
      (p = a ∨ Desc nodes a p) := by
  induction h with
  | child hf hc => exact ⟨_, _, hf, hc, Or.inl rfl⟩
  | tail hf hc _ ih =>
    rcases ih with ⟨p, np, h1, h2, h3⟩
    refine ⟨p, np, h1, h2, Or.inr ?_⟩
    rcases h3 with rfl | h3
    · exact Desc.child hf hc
    · exact Desc.tail hf hc h3

theorem unique_parent {nodes : List (Node D K)} (hnd : (node_keys nodes).Nodup)
    (hflat : (all_children nodes).Nodup) {p₁ p₂ : Node D K}
    (h₁ : p₁ ∈ nodes) (h₂ : p₂ ∈ nodes) {c : K}
    (hc₁ : c ∈ p₁.children) (hc₂ : c ∈ p₂.children) : p₁ = p₂ := by
  by_contra hne
  rcases List.append_of_mem h₁ with ⟨s, t, hst⟩
  have hmem2 : p₂ ∈ s ∨ p₂ ∈ t := by
    rw [hst] at h₂
    rcases List.mem_append.1 h₂ with hm | hm
    · exact Or.inl hm
    · rcases List.mem_cons.1 hm with hm | hm
      · exact absurd hm.symm hne
      · exact Or.inr hm
  rw [hst] at hflat
  simp only [all_children_append, all_children_cons] at hflat
  rw [List.nodup_append] at hflat
  rcases hmem2 with hm | hm
  · exact hflat.2.2 (mem_all_children.2 ⟨p₂, hm, hc₂⟩) (List.mem_append_left _ hc₁)
  · have h2 := hflat.2.1
    rw [List.nodup_append] at h2
    exact h2.2.2 hc₁ (mem_all_children.2 ⟨p₂, hm, hc₂⟩)

theorem children_nodup {nodes : List (Node D K)}
    (hflat : (all_children nodes).Nodup) {n : Node D K} (hn : n ∈ nodes) :
    n.children.Nodup := by
  rcases List.append_of_mem hn with ⟨s, t, hst⟩
  rw [hst] at hflat
  simp only [all_children_append, all_children_cons] at hflat
  rw [List.nodup_append] at hflat
  exact (List.nodup_append.1 hflat.2.1).1

theorem sibling_desc_disjoint {nodes : List (Node D K)}
    (hnd : (node_keys nodes).Nodup) (hF : Forward nodes)
    (hflat : (all_children nodes).Nodup)
    {k c₁ c₂ : K} {n : Node D K} (hf : find_node_with_key nodes k = some n)
    (hc₁ : c₁ ∈ n.children) (hc₂ : c₂ ∈ n.children) (hne : c₁ ≠ c₂) :
    ∀ x, (c₁ = x ∨ Desc nodes c₁ x) → (c₂ = x ∨ Desc nodes c₂ x) → False := by
  have hup : ∀ a b x : K, a ∈ n.children → b ∈ n.children → (a = x) →
      Desc nodes b x → False := by
    intro a b x ha hb hax hdesc
    subst hax
    rcases desc_last_step hdesc with ⟨p, np, hp, hxp, hrest⟩
    have hnp : np = n :=
      unique_parent hnd hflat (find_node_with_key_some hp).1
        (find_node_with_key_some hf).1 hxp ha
    have hpk : p = k := by
      have e1 : np.key = p := (find_node_with_key_some hp).2
      have e2 : n.key = k := (find_node_with_key_some hf).2
      rw [← e1, hnp, e2]
    rcases hrest with hpc | hdesc2
    · have hck : b = k := by rw [← hpc, hpk]
      have hcr := (child_rank hnd hF hf hb).1
      rw [hck] at hcr
      exact lt_irrefl _ hcr
    · rw [hpk] at hdesc2
      have h1 := (desc_rank hnd hF hdesc2).1
      have h2 := (child_rank hnd hF hf hb).1
      omega
  suffices hs : ∀ m x, rank nodes x = m → (c₁ = x ∨ Desc nodes c₁ x) →
      (c₂ = x ∨ Desc nodes c₂ x) → False by
    intro x h1 h2
    exact hs (rank nodes x) x rfl h1 h2
  intro m
  induction m using Nat.strong_induction_on with
  | _ m ih =>
    intro x hrx h1 h2
    rcases h1 with h1 | h1
    · rcases h2 with h2 | h2
      · exact hne (h1.trans h2.symm)
      · exact hup c₁ c₂ x hc₁ hc₂ h1 h2
    · rcases h2 with h2 | h2
      · exact hup c₂ c₁ x hc₂ hc₁ h2 h1
      · rcases desc_last_step h1 with ⟨p₁, np₁, hp₁, hx₁, hr₁⟩
        rcases desc_last_step h2 with ⟨p₂, np₂, hp₂, hx₂, hr₂⟩
        have hnp : np₁ = np₂ :=
          unique_parent hnd hflat (find_node_with_key_some hp₁).1
            (find_node_with_key_some hp₂).1 hx₁ hx₂
        have hpp : p₁ = p₂ := by
          have e1 : np₁.key = p₁ := (find_node_with_key_some hp₁).2
          have e2 : np₂.key = p₂ := (find_node_with_key_some hp₂).2
          rw [← e1, hnp, e2]
        subst hpp
        have hplt : rank nodes p₁ < rank nodes x := (child_rank hnd hF hp₁ hx₁).1

        exact ih (rank nodes p₁) (by omega) p₁ rfl (hr₁.imp Eq.symm id)
          (hr₂.imp Eq.symm id)

theorem desc_key_mem {nodes : List (Node D K)} {a b : K} (h : Desc nodes a b) :
    a ∈ node_keys nodes := by
  cases h with
  | child hf _ =>
    rcases find_node_with_key_some hf with ⟨hn, hk⟩
    exact mem_node_keys.2 ⟨_, hn, hk⟩
  | tail hf _ _ =>
    rcases find_node_with_key_some hf with ⟨hn, hk⟩
    exact mem_node_keys.2 ⟨_, hn, hk⟩

theorem pairwise_disjoint_of_nodup {α β : Type} {l : List α} {f : α → List β}
    (h : l.Nodup) (hd : ∀ a ∈ l, ∀ b ∈ l, a ≠ b → (f a).Disjoint (f b)) :
    l.Pairwise (Function.onFun List.Disjoint f) := by
  induction l with
  | nil => exact List.Pairwise.nil
  | cons a rest ih =>
    rw [List.pairwise_cons]
    rw [List.nodup_cons] at h
    constructor
    · intro b hb
      exact hd a (by simp) b (by simp [hb]) (fun he => h.1 (he ▸ hb))
    · exact ih h.2 (fun x hx y hy => hd x (by simp [hx]) y (by simp [hy]))

/-- With enough fuel, `find_all_child_nodes_fuel` collects exactly the
transitive descendants of `k`, without repetition. -/
theorem find_all_child_nodes_fuel_spec {nodes : List (Node D K)}
    (hnd : (node_keys nodes).Nodup) (hF : Forward nodes)
    (hflat : (all_children nodes).Nodup) :
    ∀ fuel k, nodes.length - rank nodes k ≤ fuel →
      (∀ x, x ∈ find_all_child_nodes_fuel nodes fuel k ↔ Desc nodes k x) ∧
      (find_all_child_nodes_fuel nodes fuel k).Nodup := by
  intro fuel
  induction fuel with
  | zero =>
    intro k hk
    have hk' : k ∉ node_keys nodes := by
      intro hmem
      have := rank_lt_length hmem
      omega
    refine ⟨fun x => ⟨fun hx => by simp [find_all_child_nodes_fuel] at hx,
      fun hd => absurd (desc_key_mem hd) hk'⟩, by simp [find_all_child_nodes_fuel]⟩
  | succ fuel ih =>
    intro k hk
    cases hfind : find_node_with_key nodes k with
    | none =>
      have hk' : k ∉ node_keys nodes := find_node_with_key_eq_none.1 hfind
      refine ⟨fun x => ⟨fun hx => by simp [find_all_child_nodes_fuel, hfind] at hx,
        fun hd => absurd (desc_key_mem hd) hk'⟩,
        by simp [find_all_child_nodes_fuel, hfind]⟩
    | some n =>
      have hkmem : k ∈ node_keys nodes := by
        rcases find_node_with_key_some hfind with ⟨hn, hkey⟩
        exact mem_node_keys.2 ⟨n, hn, hkey⟩
      have hchild_bound : ∀ c ∈ n.children, nodes.length - rank nodes c ≤ fuel := by
        intro c hc
        have h1 := (child_rank hnd hF hfind hc).1
        have h2 := rank_lt_length hkmem
        omega
      have hds : find_all_child_nodes_fuel nodes (fuel + 1) k =
          n.children.flatMap (fun c => find_all_child_nodes_fuel nodes fuel c ++ [c]) := by
        simp [find_all_child_nodes_fuel, hfind]
      constructor
      · intro x
        rw [hds, List.mem_flatMap]
        constructor
        · rintro ⟨c, hc, hx⟩
          rcases List.mem_append.1 hx with hx | hx
          · exact Desc.tail hfind hc (((ih c (hchild_bound c hc)).1 x).1 hx)
          · rw [List.mem_singleton.1 hx]
            exact Desc.child hfind hc
        · intro hd
          cases hd with
          | child hf' hc' =>
            have he : _ = n := Option.some.inj (hf'.symm.trans hfind)
            exact ⟨x, he ▸ hc', List.mem_append_right _ (by simp)⟩
          | tail hf' hc' hd' =>
            have he : _ = n := Option.some.inj (hf'.symm.trans hfind)
            refine ⟨_, he ▸ hc', List.mem_append_left _ ?_⟩
            exact ((ih _ (hchild_bound _ (he ▸ hc'))).1 x).2 hd'
      · rw [hds, List.nodup_flatMap]
        constructor
        · intro c hc
          have ihc := ih c (hchild_bound c hc)
          rw [List.nodup_append]
          refine ⟨ihc.2, List.nodup_singleton c, ?_⟩
          intro y hy hy2
          rw [List.mem_singleton.1 hy2] at hy
          exact desc_irrefl hnd hF ((ihc.1 c).1 hy)
        · refine pairwise_disjoint_of_nodup
            (children_nodup hflat (find_node_with_key_some hfind).1) ?_
          intro c₁ hc₁ c₂ hc₂ hne y hy₁ hy₂
          have hd₁ : c₁ = y ∨ Desc nodes c₁ y := by
            rcases List.mem_append.1 hy₁ with hy | hy
            · exact Or.inr (((ih c₁ (hchild_bound c₁ hc₁)).1 y).1 hy)
            · exact Or.inl (List.mem_singleton.1 hy).symm
          have hd₂ : c₂ = y ∨ Desc nodes c₂ y := by
            rcases List.mem_append.1 hy₂ with hy | hy
            · exact Or.inr (((ih c₂ (hchild_bound c₂ hc₂)).1 y).1 hy)
            · exact Or.inl (List.mem_singleton.1 hy).symm
          exact sibling_desc_disjoint hnd hF hflat hfind hc₁ hc₂ hne y hd₁ hd₂

/-- `find_all_child_nodes` (fuel `nodes.length`) collects exactly the
transitive descendants, without repetition. -/
theorem find_all_child_nodes_spec {nodes : List (Node D K)}
    (hnd : (node_keys nodes).Nodup) (hF : Forward nodes)
    (hflat : (all_children nodes).Nodup) (k : K) :
    (∀ x, x ∈ find_all_child_nodes nodes k ↔ Desc nodes k x) ∧
    (find_all_child_nodes nodes k).Nodup :=
  find_all_child_nodes_fuel_spec hnd hF hflat nodes.length k (by omega)

/-! ### Deletion lemmas -/

/-- The `for node in all_nodes_to_remove` loop of `remove_node_with_childs`:
delete each key of `L` in turn. -/
def delete_all (nodes : List (Node D K)) (L : List K) : List (Node D K) :=
  L.foldl (fun ns k => delete_node ns k) nodes

theorem remove_node_with_childs_eq {g : Graph D K} {k : K} :
    (remove_node_with_childs g k).nodes =
      delete_all g.nodes (find_all_child_nodes g.nodes k ++ [k]) := rfl

theorem delete_node_of_not_mem {nodes : List (Node D K)} {k : K}
    (h : k ∉ node_keys nodes) : delete_node nodes k = nodes := by
  induction nodes with
  | nil => rfl
  | cons n rest ih =>
    simp only [node_keys_cons, List.mem_cons, not_or] at h
    have hne : ¬ n.key = k := fun he => h.1 he.symm
    simp [delete_node, hne, ih h.2]

theorem delete_node_split {nodes : List (Node D K)} {k : K}
    (h : k ∈ node_keys nodes) :
    ∃ pre n post, nodes = pre ++ n :: post ∧ n.key = k ∧ k ∉ node_keys pre ∧
      delete_node nodes k = pre ++ post := by
  induction nodes with
  | nil => simp at h
  | cons n rest ih =>
    by_cases hn : n.key = k
    · exact ⟨[], n, rest, by simp, hn, by simp, by simp [delete_node, hn]⟩
    · have h' : k ∈ node_keys rest := by
        simp only [node_keys_cons, List.mem_cons] at h
        rcases h with h | h
        · exact absurd h.symm hn
        · exact h
      rcases ih h' with ⟨pre, m, post, h1, h2, h3, h4⟩
      refine ⟨n :: pre, m, post, by simp [h1], h2, ?_, by simp [delete_node, hn, h4]⟩
      simp only [node_keys_cons, List.mem_cons, not_or]
      exact ⟨fun he => hn he.symm, h3⟩

theorem delete_node_sublist {nodes : List (Node D K)} {k : K} :
    (delete_node nodes k).Sublist nodes := by
  induction nodes with
  | nil => simp [delete_node]
  | cons n rest ih =>
    by_cases hn : n.key = k
    · simp only [delete_node, if_pos hn]
      exact (List.sublist_cons_self n rest)
    · simp only [delete_node, if_neg hn]
      exact ih.cons₂ n

theorem delete_node_keys_nodup {nodes : List (Node D K)} {k : K}
    (hnd : (node_keys nodes).Nodup) : (node_keys (delete_node nodes k)).Nodup :=
  hnd.sublist (delete_node_sublist.map Node.key)

theorem delete_node_keys_iff {nodes : List (Node D K)} {k : K}
    (hnd : (node_keys nodes).Nodup) {x : K} :
    x ∈ node_keys (delete_node nodes k) ↔ x ∈ node_keys nodes ∧ x ≠ k := by
  by_cases h : k ∈ node_keys nodes
  · rcases delete_node_split h with ⟨pre, n, post, h1, h2, h3, h4⟩
    rw [h4, h1]
    rw [h1] at hnd
    simp only [node_keys_append, node_keys_cons, List.nodup_append, List.nodup_cons,
      List.mem_append, List.mem_cons] at hnd ⊢
    constructor
    · rintro (hx | hx)
      · refine ⟨Or.inl hx, fun he => ?_⟩
        exact hnd.2.2 (he ▸ hx) (by simp [h2])
      · refine ⟨Or.inr (Or.inr hx), fun he => ?_⟩
        exact hnd.2.1.1 (h2 ▸ he ▸ hx)
    · rintro ⟨hx | hx | hx, hne⟩
      · exact Or.inl hx
      · exact absurd (hx.trans h2) hne
      · exact Or.inr hx
  · rw [delete_node_of_not_mem h]
    exact ⟨fun hx => ⟨hx, fun he => h (he ▸ hx)⟩, fun hx => hx.1⟩

theorem delete_node_length_mem {nodes : List (Node D K)} {k : K}
    (h : k ∈ node_keys nodes) :
    (delete_node nodes k).length + 1 = nodes.length := by
  rcases delete_node_split h with ⟨pre, n, post, h1, _, _, h4⟩
  rw [h4, h1]
  simp only [List.length_append, List.length_cons]
  omega

theorem delete_node_mem {nodes : List (Node D K)} {k : K} {n : Node D K}
    (hn : n ∈ nodes) (hk : n.key ≠ k) : n ∈ delete_node nodes k := by
  induction nodes with
  | nil => simp at hn
  | cons m rest ih =>
    by_cases hm : m.key = k
    · simp only [delete_node, if_pos hm]
      rcases List.mem_cons.1 hn with hn | hn
      · exact absurd (hn ▸ hm) hk
      · exact hn
    · simp only [delete_node, if_neg hm]
      rcases List.mem_cons.1 hn with hn | hn
      · exact hn ▸ List.mem_cons_self _ _
      · exact List.mem_cons_of_mem _ (ih hn)

theorem delete_all_sublist {L : List K} {nodes : List (Node D K)} :
    (delete_all nodes L).Sublist nodes := by
  induction L generalizing nodes with
  | nil => exact List.Sublist.refl _
  | cons k L ih =>
    exact (@ih (delete_node nodes k)).trans delete_node_sublist

theorem delete_all_keys_nodup {L : List K} {nodes : List (Node D K)}
    (hnd : (node_keys nodes).Nodup) : (node_keys (delete_all nodes L)).Nodup :=
  hnd.sublist (delete_all_sublist.map Node.key)

theorem delete_all_length {L : List K} {nodes : List (Node D K)}
    (hnd : (node_keys nodes).Nodup) (hL : L.Nodup)
    (hsub : ∀ x ∈ L, x ∈ node_keys nodes) :
    (delete_all nodes L).length + L.length = nodes.length := by
  induction L generalizing nodes with
  | nil => simp [delete_all]
  | cons k L ih =>
    rw [List.nodup_cons] at hL
    have hk : k ∈ node_keys nodes := hsub k (by simp)
    have hstep : delete_all nodes (k :: L) = delete_all (delete_node nodes k) L := rfl
    have hsub' : ∀ x ∈ L, x ∈ node_keys (delete_node nodes k) := by
      intro x hx
      exact (delete_node_keys_iff hnd).2 ⟨hsub x (by simp [hx]), fun he => hL.1 (he ▸ hx)⟩
    have := ih (delete_node_keys_nodup hnd) hL.2 hsub'
    rw [hstep]
    have hlen := delete_node_length_mem hk
    simp only [List.length_cons]
    omega

theorem delete_all_mem {L : List K} {nodes : List (Node D K)} {n : Node D K}
    (hn : n ∈ nodes) (hk : n.key ∉ L) : n ∈ delete_all nodes L := by
  induction L generalizing nodes with
  | nil => exact hn
  | cons k L ih =>
    simp only [List.mem_cons, not_or] at hk
    exact ih (delete_node_mem hn hk.1) hk.2

theorem delete_all_keys_iff {L : List K} {nodes : List (Node D K)}
    (hnd : (node_keys nodes).Nodup) {x : K} :
    x ∈ node_keys (delete_all nodes L) ↔ x ∈ node_keys nodes ∧ x ∉ L := by
  induction L generalizing nodes with
  | nil => simp [delete_all]
  | cons k L ih =>
    have hstep : delete_all nodes (k :: L) = delete_all (delete_node nodes k) L := rfl
    rw [hstep, ih (delete_node_keys_nodup hnd), delete_node_keys_iff hnd]
    simp only [List.mem_cons, not_or]
    tauto

/-! ### Length of the graph after removal -/

theorem desc_ncard_eq {nodes : List (Node D K)} (hnd : (node_keys nodes).Nodup)
    (hF : Forward nodes) (hflat : (all_children nodes).Nodup) (k : K) :
    Set.ncard {x | Desc nodes k x} = (find_all_child_nodes nodes k).length := by
  obtain ⟨hmem, hnodup⟩ := find_all_child_nodes_spec hnd hF hflat k
  have hset : {x | Desc nodes k x} = ↑(find_all_child_nodes nodes k).toFinset := by
    ext x
    simp only [Set.mem_setOf_eq, Finset.coe_sort_coe, List.coe_toFinset, Set.mem_setOf_eq]
    exact (hmem x).symm
  rw [hset, Set.ncard_coe_Finset, List.toFinset_card_of_nodup hnodup]

theorem remove_len_mem {g : Graph D K} (hb : Built g)
    (hnd : (node_keys g.nodes).Nodup) {k : K} (hk : k ∈ node_keys g.nodes) :
    (remove_node_with_childs g k).len +
      (1 + (find_all_child_nodes g.nodes k).length) = g.len := by
  obtain ⟨hmem, hnodup⟩ :=
    find_all_child_nodes_spec hnd (built_forward hb) (built_flat_nodup hb hnd) k
  have hL : (find_all_child_nodes g.nodes k ++ [k]).Nodup := by
    rw [List.nodup_append]
    refine ⟨hnodup, List.nodup_singleton k, ?_⟩
    intro x hx hx2
    rw [List.mem_singleton.1 hx2] at hx
    exact desc_irrefl hnd (built_forward hb) ((hmem k).1 hx)
  have hsub : ∀ x ∈ find_all_child_nodes g.nodes k ++ [k], x ∈ node_keys g.nodes := by
    intro x hx
    rcases List.mem_append.1 hx with hx | hx
    · exact (desc_rank hnd (built_forward hb) ((hmem x).1 hx)).2
    · exact (List.mem_singleton.1 hx) ▸ hk
  have := delete_all_length hnd hL hsub
  rw [Graph.len, Graph.len, remove_node_with_childs_eq]
  simp only [List.length_append, List.length_singleton] at this ⊢
  omega

theorem remove_len_absent {g : Graph D K} {k : K} (hk : k ∉ node_keys g.nodes) :
    (remove_node_with_childs g k).len = g.len := by
  have hfind : find_node_with_key g.nodes k = none := find_node_with_key_eq_none.2 hk
  have hds : find_all_child_nodes g.nodes k = [] := by
    cases h : g.nodes.length with
    | zero => simp [find_all_child_nodes, h, find_all_child_nodes_fuel]
    | succ m => simp [find_all_child_nodes, h, find_all_child_nodes_fuel, hfind]
  have : (remove_node_with_childs g k).nodes = g.nodes := by
    rw [remove_node_with_childs_eq, hds]
    show delete_node g.nodes k = g.nodes
    exact delete_node_of_not_mem hk
  rw [Graph.len, Graph.len, this]

/-! ### Claim C1 -/

/-- C1: for every tree with pairwise-distinct keys (trees are values reachable
by successful `append_node` calls from `Graph::new`): a successful
`append_node` increases `len()` by exactly 1; `remove_node_with_childs k`
decreases `len()` by exactly 1 plus the number of transitive descendants of
`k` when a node with key `k` is present, and by 0 when none is. -/
theorem c1_count_invariant {D K : Type} [DecidableEq K] (g : Graph D K)
    (hb : Built g) (hnd : (node_keys g.nodes).Nodup) :
    (∀ (n : Node D K) (g' : Graph D K), append_node g n = (g', none) →
      g'.len = g.len + 1) ∧
    (∀ k, k ∈ node_keys g.nodes →
      (remove_node_with_childs g k).len + (1 + Set.ncard {x | Desc g.nodes k x}) =
        g.len) ∧
    (∀ k, k ∉ node_keys g.nodes → (remove_node_with_childs g k).len = g.len) := by
  refine ⟨fun n g' h => append_node_ok_len h, fun k hk => ?_, fun k hk =>
    remove_len_absent hk⟩
  rw [desc_ncard_eq hnd (built_forward hb) (built_flat_nodup hb hnd)]
  exact remove_len_mem hb hnd hk

/-- Stage 1 of the concrete four-node graph: the root 0. -/
def g4a : Graph Nat Nat := (append_node Graph.new (Node.new 10 0 none)).1

/-- Stage 2: node 1 appended under 0. -/
def g4b : Graph Nat Nat := (append_node g4a (Node.new 11 1 (some 0))).1

/-- Stage 3: node 2 appended under 0. -/
def g4c : Graph Nat Nat := (append_node g4b (Node.new 12 2 (some 0))).1

/-- A concrete four-node graph with numeric payloads and keys: 0 is the root,
1 and 2 its children, 3 a child of 2. -/
def g4 : Graph Nat Nat := (append_node g4c (Node.new 13 3 (some 2))).1

theorem built_g4 : Built g4 := by
  have e1 : append_node (Graph.new : Graph Nat Nat) (Node.new 10 0 none) =
      (g4a, none) := by rfl
  have e2 : append_node g4a (Node.new 11 1 (some 0)) = (g4b, none) := by rfl
  have e3 : append_node g4b (Node.new 12 2 (some 0)) = (g4c, none) := by rfl
  have e4 : append_node g4c (Node.new 13 3 (some 2)) = (g4, none) := by rfl
  exact Built.app (Built.app (Built.app (Built.app Built.base e1) e2) e3) e4

/-- Witness for C1 on `g4`: a successful append grows `len` to 5; removing
key 2 (one descendant: 3) shrinks `len` by 2; removing the absent key 9
leaves `len` unchanged. -/
theorem c1_count_witness :
    (append_node g4 (Node.new 14 4 (some 0))).1.len = g4.len + 1 ∧
    (remove_node_with_childs g4 2).len + (1 + Set.ncard {x | Desc g4.nodes 2 x}) =
      g4.len ∧
    (remove_node_with_childs g4 9).len = g4.len := by
  obtain ⟨h1, h2, h3⟩ := c1_count_invariant g4 built_g4 (by decide)
  exact ⟨h1 (Node.new 14 4 (some 0)) (append_node g4 (Node.new 14 4 (some 0))).1 rfl,
    h2 2 (by decide), h3 9 (by decide)⟩

/-! ### Claims C3, C4, C5, C6 -/

/-- C3: whenever `append_node` fails with a structural violation (any of its
panic messages), the whole container state — the node sequence and with it
every node's children list — is exactly the pre-call state. -/
theorem c3_no_partial_insert {D K : Type} [DecidableEq K] (g : Graph D K)
    (n : Node D K) (e : String) (h : (append_node g n).2 = some e) :
    (append_node g n).1 = g :=
  append_node_fail_state h

/-- Witness for C3: appending a node with a father key to the empty graph
fails and leaves the graph empty. -/
theorem c3_no_partial_insert_witness :
    (append_node (Graph.new : Graph Nat Nat) (Node.new 0 0 (some 1))).1 =
      Graph.new :=
  c3_no_partial_insert Graph.new (Node.new 0 0 (some 1))
    "First node cant have a fathers key." rfl

/-- C4: appending a node with no father key to a non-empty tree fails with a
structural violation (the panic "Needs father and no father found") and
leaves `len()` unchanged. -/
theorem c4_root_rejection {D K : Type} [DecidableEq K] (g : Graph D K)
    (n : Node D K) (hne : g.nodes ≠ []) (hfk : n.father_key = none) :
    (append_node g n).2 = some "Needs father and no father found" ∧
    (append_node g n).1.len = g.len := by
  have hemp : g.nodes.isEmpty = false := by simpa [List.isEmpty_iff] using hne
  constructor <;> simp [append_node, hemp, hfk]

/-- Witness for C4 on the one-node graph `g4a`. -/
theorem c4_root_rejection_witness :
    (append_node g4a (Node.new 5 5 none)).2 =
      some "Needs father and no father found" ∧
    (append_node g4a (Node.new 5 5 none)).1.len = g4a.len :=
  c4_root_rejection g4a (Node.new 5 5 none) (by decide) rfl

/-- C5: appending a node whose declared father key matches the key of no node
of the tree fails with a structural violation and leaves `len()` unchanged
(on the empty tree the root-cannot-have-parent panic fires instead, with the
same effect on `len()`). -/
theorem c5_father_not_found {D K : Type} [DecidableEq K] (g : Graph D K)
    (n : Node D K) (fk : K) (hfk : n.father_key = some fk)
    (hmem : fk ∉ node_keys g.nodes) :
    (∃ e, (append_node g n).2 = some e) ∧ (append_node g n).1.len = g.len := by
  by_cases hemp : g.nodes.isEmpty
  · exact ⟨⟨"First node cant have a fathers key.",
      by simp [append_node, hemp, hfk]⟩, by simp [append_node, hemp, hfk]⟩
  · have hloop := @append_child_loop_of_not_mem D K _ g.nodes fk n.key hmem
    refine ⟨⟨"Needs father and no father found", ?_⟩, ?_⟩ <;>
      simp [append_node, hemp, hfk, hloop, Graph.len]

/-- Witness for C5 on `g4`: father key 9 exists nowhere. -/
theorem c5_father_not_found_witness :
    (∃ e, (append_node g4 (Node.new 5 5 (some 9))).2 = some e) ∧
    (append_node g4 (Node.new 5 5 (some 9))).1.len = g4.len :=
  c5_father_not_found g4 (Node.new 5 5 (some 9)) 9 rfl (by decide)

/-- C6: on the empty tree, appending a node that carries a father key fails
with the root-cannot-have-parent panic and the tree stays empty, while
appending a node without a father key succeeds and makes it the sole node. -/
theorem c6_empty_append {D K : Type} [DecidableEq K] (g : Graph D K)
    (h : g.nodes = []) :
    (∀ n : Node D K, n.father_key ≠ none →
      (append_node g n).2 = some "First node cant have a fathers key." ∧
      (append_node g n).1 = g) ∧
    (∀ n : Node D K, n.father_key = none → append_node g n = (⟨[n]⟩, none)) := by
  have hemp : g.nodes.isEmpty := by simp [h]
  constructor
  · intro n hfk
    cases hk : n.father_key with
    | none => exact absurd hk hfk
    | some fk =>
      exact ⟨by simp [append_node, hemp, hk], by simp [append_node, hemp, hk]⟩
  · intro n hfk
    simp [append_node, hemp, hfk, h]

/-- Witness for C6 on `Graph.new`. -/
theorem c6_empty_append_witness :
    ((append_node (Graph.new : Graph Nat Nat) (Node.new 0 7 (some 3))).2 =
      some "First node cant have a fathers key." ∧
     (append_node (Graph.new : Graph Nat Nat) (Node.new 0 7 (some 3))).1 =
      Graph.new) ∧
    append_node (Graph.new : Graph Nat Nat) (Node.new 0 7 none) =
      (⟨[Node.new 0 7 none]⟩, none) := by
  obtain ⟨h1, h2⟩ := c6_empty_append (Graph.new : Graph Nat Nat) rfl
  exact ⟨h1 (Node.new 0 7 (some 3)) (by simp [Node.new]), h2 (Node.new 0 7 none) rfl⟩

/-! ### Claim C10 -/

theorem travel_loop_none {nodes : List (Node D K)} (route : List K) :
    travel_loop nodes none route = none := by
  induction route with
  | nil => rfl
  | cons k rest ih => simpa [travel_loop] using ih

/-- C10: on a tree with no nodes, `travel_to_node` returns `none` for every
route, the empty route included. -/
theorem c10_empty_graph_travel {D K : Type} [DecidableEq K] (g : Graph D K)
    (h : g.nodes = []) : ∀ route, travel_to_node g route = none := by
  intro route
  rw [travel_to_node, h]
  exact travel_loop_none route

/-- Witness for C10: the empty graph on a sample route and the empty route. -/
theorem c10_empty_graph_travel_witness :
    travel_to_node (Graph.new : Graph Nat Nat) [5] = none ∧
    travel_to_node (Graph.new : Graph Nat Nat) [] = none :=
  ⟨c10_empty_graph_travel Graph.new rfl [5], c10_empty_graph_travel Graph.new rfl []⟩

/-! ### Claim C2 -/

theorem first_root_cons_none {n : Node D K} {rest : List (Node D K)}
    (h : n.father_key = none) : first_root (n :: rest) = some n := by
  simp [first_root, h]

/-- In a graph with unique keys whose father links are mirrored in children
lists, a node `Y` declaring father `X.key` is reached from `X` by one
traversal step. -/
theorem travel_step {nodes : List (Node D K)} (hnd : (node_keys nodes).Nodup)
    (hm : Mirror nodes) {X Y : Node D K} (hX : X ∈ nodes) (hY : Y ∈ nodes)
    (hYf : Y.father_key = some X.key) :
    X.has_child Y.key = true ∧ find_node_with_key nodes Y.key = some Y := by
  rcases hm Y hY X.key hYf with ⟨p, hp, hpk, hpc⟩
  have hpX : p = X := key_inj hnd hp hX hpk
  exact ⟨Node.has_child_iff.2 (hpX ▸ hpc), find_node_with_key_of_mem hnd hY⟩

/-- C2 counterexample graph: keys are not pairwise distinct. Nodes: root
key 10; key 20 under 10; key 30 under 10; a second key 30 under 20. -/
def gc2a : Graph Nat Nat := (append_node Graph.new (Node.new 0 10 none)).1

/-- Stage 2 of the C2 counterexample graph. -/
def gc2b : Graph Nat Nat := (append_node gc2a (Node.new 1 20 (some 10))).1

/-- Stage 3 of the C2 counterexample graph. -/
def gc2c : Graph Nat Nat := (append_node gc2b (Node.new 2 30 (some 10))).1

/-- The C2 counterexample graph (four nodes, two of them with key 30). -/
def gC2 : Graph Nat Nat := (append_node gc2c (Node.new 3 30 (some 20))).1

theorem built_gC2 : Built gC2 := by
  have e1 : append_node (Graph.new : Graph Nat Nat) (Node.new 0 10 none) =
      (gc2a, none) := by rfl
  have e2 : append_node gc2a (Node.new 1 20 (some 10)) = (gc2b, none) := by rfl
  have e3 : append_node gc2b (Node.new 2 30 (some 10)) = (gc2c, none) := by rfl
  have e4 : append_node gc2c (Node.new 3 30 (some 20)) = (gC2, none) := by rfl
  exact Built.app (Built.app (Built.app (Built.app Built.base e1) e2) e3) e4

/-- C2 as stated is false: in a tree built by successful appends that
contains a root R, a node A appended with parent R and a node B appended
with parent A, `travel_to_node [A.key, B.key]` need not return B — with a
duplicated key, traversal stops at the first node carrying B's key. -/
theorem c2_travel_counterexample :
    Built gC2 ∧
    ∃ R ∈ gC2.nodes, R.father_key = none ∧
      ∃ A ∈ gC2.nodes, A.father_key = some R.key ∧
        ∃ B ∈ gC2.nodes, B.father_key = some A.key ∧
          travel_to_node gC2 [A.key, B.key] ≠ some B :=
  ⟨built_gC2, by decide⟩

/-- C2 amended: additionally assume the node keys are pairwise distinct.
Then for a root R, a node A appended with parent R and a node B appended
with parent A, `travel_to_node [A.key, B.key]` returns B,
`travel_to_node []` returns R, and `travel_to_node [k]` for a key present in
no node returns none. -/
theorem c2_travel_amended {D K : Type} [DecidableEq K] (g : Graph D K)
    (hb : Built g) (hnd : (node_keys g.nodes).Nodup)
    (R A B : Node D K) (hR : R ∈ g.nodes) (hRf : R.father_key = none)
    (hA : A ∈ g.nodes) (hAf : A.father_key = some R.key)
    (hB : B ∈ g.nodes) (hBf : B.father_key = some A.key) :
    travel_to_node g [A.key, B.key] = some B ∧
    travel_to_node g [] = some R ∧
    ∀ k, k ∉ node_keys g.nodes → travel_to_node g [k] = none := by
  cases hg : g.nodes with
  | nil => rw [hg] at hR; simp at hR
  | cons h t =>
    obtain ⟨hhf, htail⟩ := built_rootshape hb h t hg
    have hRh : R = h := by
      rw [hg] at hR
      rcases List.mem_cons.1 hR with hR | hR
      · exact hR
      · exact absurd hRf (htail R hR)
    have hfr : first_root g.nodes = some R := by
      rw [hg, first_root_cons_none hhf, hRh]
    have hm := built_mirror hb
    obtain ⟨hcA, hfA⟩ := travel_step hnd hm hR hA hAf
    obtain ⟨hcB, hfB⟩ := travel_step hnd hm hA hB hBf
    refine ⟨?_, ?_, ?_⟩
    · rw [travel_to_node, hfr]
      simp [travel_loop, hcA, hfA, hcB, hfB]
    · rw [travel_to_node, hfr]
      rfl
    · intro k hk
      have hck : ¬ R.has_child k = true := by
        intro hc
        apply hk
        have hsplit : g.nodes = [] ++ R :: t := by simp [hg, hRh]
        have := forward_split (built_forward hb) hsplit k (Node.has_child_iff.1 hc)
        simp only [node_keys_cons]
        exact List.mem_cons_of_mem _ this
      rw [travel_to_node, hfr]
      simp [travel_loop, hck]

/-- Witness for the amended C2 on `g4` with R the stored root 0, A the
stored node 2 and B the stored node 3, plus the absent key 9. -/
theorem c2_travel_amended_witness :
    travel_to_node g4 [2, 3] =
      some { data := 13, children := [], father_key := some 2, key := 3 } ∧
    travel_to_node g4 [] =
      some { data := 10, children := [1, 2], father_key := none, key := 0 } ∧
    travel_to_node g4 [9] = none := by
  obtain ⟨h1, h2, h3⟩ := c2_travel_amended g4 built_g4 (by decide)
    { data := 10, children := [1, 2], father_key := none, key := 0 }
    { data := 12, children := [3], father_key := some 0, key := 2 }
    { data := 13, children := [], father_key := some 2, key := 3 }
    (by decide) rfl (by decide) rfl (by decide) rfl
  exact ⟨h1, h2, h3 9 (by decide)⟩

/-! ### Claim C7 -/

/-- C7 as stated is false: `Graph.new` is built solely through successful
`append_node` calls (zero of them) and contains no parentless node at all. -/
theorem c7_root_uniqueness_counterexample :
    Built (Graph.new : Graph Nat Nat) ∧
    (Graph.new : Graph Nat Nat).nodes.countP (fun n => n.father_key.isNone) ≠ 1 :=
  ⟨Built.base, by decide⟩

/-- C7 amended: for any nonempty tree built solely through successful
`append_node` calls, exactly one node has no father key. -/
theorem c7_root_uniqueness_amended {D K : Type} [DecidableEq K] (g : Graph D K)
    (hb : Built g) (hne : g.nodes ≠ []) :
    g.nodes.countP (fun n => n.father_key.isNone) = 1 := by
  cases hg : g.nodes with
  | nil => exact absurd hg hne
  | cons h t =>
    obtain ⟨hhf, htail⟩ := built_rootshape hb h t hg
    rw [List.countP_cons]
    have h2 : t.countP (fun n => n.father_key.isNone) = 0 := by
      rw [List.countP_eq_zero]
      intro x hx
      have := htail x hx
      simpa [Option.isNone_iff_eq_none] using this
    rw [h2]
    simp [hhf]

/-- Witness for the amended C7 on the four-node graph `g4`. -/
theorem c7_root_uniqueness_witness :
    g4.nodes.countP (fun n => n.father_key.isNone) = 1 :=
  c7_root_uniqueness_amended g4 built_g4 (by decide)

/-! ### Claim C8 -/

/-- Stage 1 of the doc-test tree: root `Start`. -/
def gt1 : Graph Nat String := (append_node Graph.new (Node.new 0 "Start" none)).1

/-- Stage 2: `Essen` under `Start`. -/
def gt2 : Graph Nat String := (append_node gt1 (Node.new 1 "Essen" (some "Start"))).1

/-- Stage 3: `Sitzplatz` under `Start`. -/
def gt3 : Graph Nat String :=
  (append_node gt2 (Node.new 2 "Sitzplatz" (some "Start"))).1

/-- The full doc-test tree: `Gang` under `Sitzplatz`. -/
def gtest : Graph Nat String :=
  (append_node gt3 (Node.new 3 "Gang" (some "Sitzplatz"))).1

/-- C8: the concrete four-node tree Start / Essen / Sitzplatz / Gang is built
by four successful appends, has `len() = 4`; after
`remove_node_with_childs "Sitzplatz"` the remaining nodes are exactly Start
and Essen, `len() = 2`, and `travel_to_node ["Sitzplatz"]` returns none. -/
theorem c8_cascading_delete :
    ((append_node (Graph.new : Graph Nat String) (Node.new 0 "Start" none)).2 =
        none ∧
      (append_node gt1 (Node.new 1 "Essen" (some "Start"))).2 = none ∧
      (append_node gt2 (Node.new 2 "Sitzplatz" (some "Start"))).2 = none ∧
      (append_node gt3 (Node.new 3 "Gang" (some "Sitzplatz"))).2 = none) ∧
    gtest.len = 4 ∧
    node_keys (remove_node_with_childs gtest "Sitzplatz").nodes =
      ["Start", "Essen"] ∧
    (remove_node_with_childs gtest "Sitzplatz").len = 2 ∧
    travel_to_node (remove_node_with_childs gtest "Sitzplatz") ["Sitzplatz"] =
      none :=
  ⟨⟨rfl, rfl, rfl, rfl⟩, rfl, rfl, rfl, rfl⟩

/-! ### Claim C9 -/

/-- C9: `remove_node_with_childs` only ever deletes nodes — the surviving
node list is a sublist of the original, so no surviving node's children list
is modified; in particular, for a built tree with distinct keys, the parent
`p` of the removed key `k` survives untouched, still lists `k` among its
children, while no node with key `k` remains: a dangling reference. -/
theorem c9_dangling_reference {D K : Type} [DecidableEq K] (g : Graph D K)
    (k : K) (hb : Built g) (hnd : (node_keys g.nodes).Nodup)
    (p : Node D K) (hp : p ∈ g.nodes) (hk : k ∈ p.children) :
    (∀ (g' : Graph D K) (k' : K),
      (remove_node_with_childs g' k').nodes.Sublist g'.nodes) ∧
    p ∈ (remove_node_with_childs g k).nodes ∧
    k ∈ p.children ∧
    k ∉ node_keys (remove_node_with_childs g k).nodes := by
  have hF := built_forward hb
  have hflat := built_flat_nodup hb hnd
  obtain ⟨hmem, hnodup⟩ := find_all_child_nodes_spec hnd hF hflat k
  have hfp : find_node_with_key g.nodes p.key = some p :=
    find_node_with_key_of_mem hnd hp
  have hrank : rank g.nodes p.key < rank g.nodes k := (child_rank hnd hF hfp hk).1
  have hpnot : p.key ∉ find_all_child_nodes g.nodes k ++ [k] := by
    intro hmem'
    rcases List.mem_append.1 hmem' with hx | hx
    · have hd := (hmem p.key).1 hx
      have := (desc_rank hnd hF hd).1
      omega
    · rw [List.mem_singleton.1 hx] at hrank
      exact lt_irrefl _ hrank
  refine ⟨fun g' k' => ?_, ?_, hk, ?_⟩
  · rw [remove_node_with_childs_eq]
    exact delete_all_sublist
  · rw [remove_node_with_childs_eq]
    exact delete_all_mem hp hpnot
  · rw [remove_node_with_childs_eq]
    intro hmem'
    exact ((delete_all_keys_iff hnd).1 hmem').2 (by simp)

/-- Witness for C9 on `g4`, removing key 2 whose parent is the stored
root. -/
theorem c9_dangling_reference_witness :
    (remove_node_with_childs g4 2).nodes.Sublist g4.nodes ∧
    { data := 10, children := [1, 2], father_key := none, key := 0 } ∈
      (remove_node_with_childs g4 2).nodes ∧
    (2 : Nat) ∈
      ({ data := 10, children := [1, 2], father_key := none, key := 0 } :
        Node Nat Nat).children ∧
    (2 : Nat) ∉ node_keys (remove_node_with_childs g4 2).nodes := by
  obtain ⟨h1, h2, h3, h4⟩ := c9_dangling_reference g4 2 built_g4 (by decide)
    { data := 10, children := [1, 2], father_key := none, key := 0 }
    (by decide) (by decide)
  exact ⟨h1 g4 2, h2, h3, h4⟩

end GraphLib
